import Mathlib

/-!
Verification of the Minesweeper knowledge-base inference engine
(`src/minesweeper.py`, classes `Sentence` and `MinesweeperAI`).

This file gives a shallow embedding of the engine and proves / refutes the
frozen claims about it.

Modelling conventions:
* A Python cell `(i, j)` is a pair of (arbitrary-precision, possibly negative)
  integers, so `Cell := ℤ × ℤ`.
* A Python `set` of cells is a `Finset Cell`; a Python `list` of sentences is a
  `List Sentence` (the list order matters for `remove_duplicates`, which keeps
  the first sentence with a given cell set).
* Python's `for move in self.safes: sentence.mark_safe(move)` iterates a set in
  unspecified order; single-cell marks for distinct cells commute, so the
  result is order-independent and we fold over the canonical `Finset.toList`.
* `print` calls are I/O only and have no effect on the state; they are omitted.
* The engine raises no exceptions on any input (there is no contradiction
  handling in the source), so all operations are total functions on states.
-/

abbrev Cell := ℤ × ℤ

/-- `Sentence(cells, count, mc)` from `src/minesweeper.py`: a set of board
cells together with the asserted number of mines among them, plus the `mc`
field (the observed middle cell, kept by the source "for testing purposes"). -/
@[ext] structure Sentence where
  cells : Finset Cell
  count : ℤ
  mc : Cell
deriving DecidableEq

/-- Python `Sentence.__eq__`: two sentences are equal iff their cell sets and
counts agree; the `mc` field is ignored. -/
def Sentence.pyEq (s o : Sentence) : Prop :=
  s.cells = o.cells ∧ s.count = o.count

instance (s o : Sentence) : Decidable (Sentence.pyEq s o) := by
  unfold Sentence.pyEq; infer_instance

/-- `Sentence.known_mines`: all of `cells` if `len(cells) == count`, else `∅`. -/
def Sentence.known_mines (s : Sentence) : Finset Cell :=
  if (s.cells.card : ℤ) = s.count then s.cells else ∅

/-- `Sentence.known_safes`: all of `cells` if `count == 0`, else `∅`. -/
def Sentence.known_safes (s : Sentence) : Finset Cell :=
  if s.count = 0 then s.cells else ∅

/-- `Sentence.mark_mine`: if the cell is present, remove it and decrement
`count`; otherwise no-op. -/
def Sentence.mark_mine (s : Sentence) (c : Cell) : Sentence :=
  if c ∈ s.cells then ⟨s.cells.erase c, s.count - 1, s.mc⟩ else s

/-- `Sentence.mark_safe`: if the cell is present, remove it (count unchanged);
otherwise no-op. -/
def Sentence.mark_safe (s : Sentence) (c : Cell) : Sentence :=
  if c ∈ s.cells then ⟨s.cells.erase c, s.count, s.mc⟩ else s

/-- The state of `MinesweeperAI`: board dimensions plus the four evolving
collections. -/
@[ext] structure AI where
  height : ℕ
  width : ℕ
  moves_made : Finset Cell
  mines : Finset Cell
  safes : Finset Cell
  knowledge : List Sentence
deriving DecidableEq

/-- `MinesweeperAI.__init__(height, width)`. -/
def initAI (h w : ℕ) : AI :=
  ⟨h, w, ∅, ∅, ∅, []⟩

/-- `MinesweeperAI.mark_mine`: add the cell to `mines` and broadcast
`Sentence.mark_mine` to every sentence in `knowledge`. -/
def AI.mark_mine (a : AI) (c : Cell) : AI :=
  { a with mines := insert c a.mines,
           knowledge := a.knowledge.map (fun s => s.mark_mine c) }

/-- `MinesweeperAI.mark_safe`: add the cell to `safes` and broadcast
`Sentence.mark_safe` to every sentence in `knowledge`. -/
def AI.mark_safe (a : AI) (c : Cell) : AI :=
  { a with safes := insert c a.safes,
           knowledge := a.knowledge.map (fun s => s.mark_safe c) }

/-- The neighbour set computed at the top of `add_knowledge`: all in-bounds
cells within Chebyshev distance 1 of `cell`, excluding `cell` itself. -/
def neighbors (h w : ℕ) (cell : Cell) : Finset Cell :=
  ((([-1, 0, 1] : List ℤ).flatMap
      (fun di => (([-1, 0, 1] : List ℤ).map
        (fun dj => (cell.1 + di, cell.2 + dj))))).toFinset).filter
    (fun p => p ≠ cell ∧ 0 ≤ p.1 ∧ p.1 < (h : ℤ) ∧ 0 ≤ p.2 ∧ p.2 < (w : ℤ))

/-- `Sentence.mark_safe` in closed form: the cell is erased (erasing an absent
cell is a no-op) and `count` and `mc` are untouched. -/
theorem mark_safe_eq (s : Sentence) (c : Cell) :
    s.mark_safe c = ⟨s.cells.erase c, s.count, s.mc⟩ := by
  unfold Sentence.mark_safe
  split_ifs with h
  · rfl
  · ext x <;> simp [Finset.erase_eq_of_not_mem h]

/-- `Sentence.mark_mine` in closed form: the cell is erased and `count` drops
by 1 exactly when the cell was present. -/
theorem mark_mine_eq (s : Sentence) (c : Cell) :
    s.mark_mine c =
      ⟨s.cells.erase c, s.count - (if c ∈ s.cells then 1 else 0), s.mc⟩ := by
  unfold Sentence.mark_mine
  split_ifs with h
  · rfl
  · ext x <;> simp [Finset.erase_eq_of_not_mem h]

theorem mark_safe_comm (s : Sentence) (a b : Cell) :
    (s.mark_safe a).mark_safe b = (s.mark_safe b).mark_safe a := by
  simp only [mark_safe_eq]
  ext x <;> simp only [Finset.mem_erase]
  constructor <;> (intro hx; tauto)

theorem mark_mine_comm (s : Sentence) (a b : Cell) :
    (s.mark_mine a).mark_mine b = (s.mark_mine b).mark_mine a := by
  by_cases hab : a = b
  · subst hab; rfl
  · have hc : (s.cells.erase a).erase b = (s.cells.erase b).erase a := by
      ext x
      simp only [Finset.mem_erase]
      constructor <;> (intro hx; tauto)
    have hb : (b ∈ s.cells.erase a) = (b ∈ s.cells) := by
      simp only [Finset.mem_erase]
      exact propext ⟨fun h => h.2, fun h => ⟨fun he => hab he.symm, h⟩⟩
    have ha : (a ∈ s.cells.erase b) = (a ∈ s.cells) := by
      simp only [Finset.mem_erase]
      exact propext ⟨fun h => h.2, fun h => ⟨hab, h⟩⟩
    simp only [mark_mine_eq]
    refine Sentence.ext hc ?_ rfl
    show (s.count - _) - _ = (s.count - _) - _
    simp only [hb, ha]
    split_ifs <;> ring

instance : RightCommutative Sentence.mark_safe :=
  ⟨fun s a b => mark_safe_comm s a b⟩

instance : RightCommutative Sentence.mark_mine :=
  ⟨fun s a b => mark_mine_comm s a b⟩

/-- Folding a union over a sentence list: models a loop
`for sentence in knowledge: acc |= f(sentence)` starting from `acc = init`. -/
def collectFold (f : Sentence → Finset Cell) (k : List Sentence)
    (acc : Finset Cell) : Finset Cell :=
  k.foldl (fun x s => x ∪ f s) acc

/-- `for move in S: sentence.mark_safe(move)`: the marks for distinct cells
commute (instance above), so the unspecified Python set iteration order is
modelled by a multiset fold. -/
def markSafesF (s : Sentence) (S : Finset Cell) : Sentence :=
  Multiset.foldl Sentence.mark_safe s S.val

/-- `for mine in M: sentence.mark_mine(mine)` (same remark on order). -/
def markMinesF (s : Sentence) (M : Finset Cell) : Sentence :=
  Multiset.foldl Sentence.mark_mine s M.val

/-- The per-sentence body of the second loop of `update_knowledge`: mark all
of `safes`, then all of `mines`, on one sentence. -/
def markBoth (s : Sentence) (S M : Finset Cell) : Sentence :=
  markMinesF (markSafesF s S) M

/-- `remove_duplicates` inside `add_knowledge`: keep only the first sentence
with each frozen cell set (`seen` accumulates cell sets already kept).
Deduplication is by cell set only — the count is ignored, as in the source. -/
def removeDups : List Sentence → Finset (Finset Cell) → List Sentence
  | [], _ => []
  | s :: rest, seen =>
      if s.cells ∈ seen then removeDups rest seen
      else s :: removeDups rest (insert s.cells seen)

/-- The `safes` set after the first (collection) loop of `update_knowledge`:
the old `safes` united with `known_safes()` of every sentence. -/
def ukSafes (a : AI) : Finset Cell :=
  collectFold Sentence.known_safes a.knowledge a.safes

/-- The `mines` set after the first (collection) loop of `update_knowledge`. -/
def ukMines (a : AI) : Finset Cell :=
  collectFold Sentence.known_mines a.knowledge a.mines

/-- The `knowledge` list after `update_knowledge`: every sentence marked with
the collected `safes`/`mines`, empty-cell sentences pruned, duplicates (by
cell set, first kept) removed. -/
def ukKnowledge (a : AI) : List Sentence :=
  removeDups
    (((a.knowledge.map (fun s => markBoth s (ukSafes a) (ukMines a))).filter
      (fun s => decide (s.cells ≠ ∅)))) ∅

/-- `update_knowledge` (nested function of `add_knowledge`): collect trivial
deductions into `safes`/`mines`, broadcast the marks to every sentence, prune
empty sentences, deduplicate. -/
def uk (a : AI) : AI :=
  { a with safes := ukSafes a, mines := ukMines a, knowledge := ukKnowledge a }

/-- One full subset-difference pass of the `while` loop of `add_knowledge`:
for ordered pairs `(sentence, other_sentence)` of knowledge-list entries that
are not Python-equal and with `sentence.cells ⊆ other_sentence.cells`, emit
`Sentence(other.cells - sentence.cells, other.count - sentence.count,
sentence.mc)` provided the difference is non-empty and no sentence of the
current knowledge list already has that exact cell set.  The emitted list is
the `new_knowledge` accumulator; the pass found nothing iff it is `[]`. -/
def inferPass (k : List Sentence) : List Sentence :=
  k.flatMap (fun s =>
    k.flatMap (fun o =>
      if (¬ Sentence.pyEq s o) ∧ s.cells ⊆ o.cells ∧ o.cells \ s.cells ≠ ∅ ∧
          (∀ t ∈ k, o.cells \ s.cells ≠ t.cells) then
        [⟨o.cells \ s.cells, o.count - s.count, s.mc⟩]
      else []))

/-- Python `set == int` evaluates to `False` (both `set.__eq__` and
`int.__eq__` return `NotImplemented` for the other type, and the fallback
comparison of objects of different types is inequality).  This is the shallow
embedding of the guard `common_cells == 3` in `add_knowledge`. -/
def pySetEqNat (_ : Finset Cell) (_ : ℕ) : Bool :=
  false

/-- The (set-valued) additions that the second inner loop of `add_knowledge`
(lines 228-236, the `common_cells == 3` branch) would make to `self.mines`
and `self.safes`: for each ordered pair of not-Python-equal sentences whose
guard fires, the pair `(sentence.cells - other.cells, other.cells -
sentence.cells)` destined for `mines.add(...)` / `safes.add(...)`. -/
def deadBranchAdds (k : List Sentence) : List (Finset Cell × Finset Cell) :=
  k.flatMap (fun s =>
    k.flatMap (fun o =>
      if (¬ Sentence.pyEq s o) ∧ pySetEqNat (s.cells ∩ o.cells) 3 = true ∧
          (s.cells.card : ℤ) - s.count = 1 ∧ o.count = 2 then
        [(s.cells \ o.cells, o.cells \ s.cells)]
      else []))

/-- One iteration of the `while` loop body: extend `knowledge` with the pass
results, then run `update_knowledge`. -/
def stepF (a : AI) : AI :=
  uk { a with knowledge := a.knowledge ++ inferPass a.knowledge }

/-- The `while not finished` loop of `add_knowledge`, with explicit fuel.
Each iteration runs the body (`stepF`); the loop exits after the first body
run whose subset-difference pass produced nothing. -/
def loopGo : ℕ → AI → AI
  | 0, a => a
  | n + 1, a => if inferPass a.knowledge = [] then stepF a else loopGo n (stepF a)

/-- Fuel that always suffices for the loop (proved below): the loop measure is
bounded by `(h*w + 1) * (2 ^ (h*w) + 1)`. -/
def fuelBound (h w : ℕ) : ℕ :=
  (h * w + 1) * (2 ^ (h * w) + 1)

/-- The straight-line prefix of `add_knowledge` before the loop: record the
move, mark the observed cell safe, append the neighbour sentence. -/
def obsPrep (a : AI) (cell : Cell) (count : ℤ) : AI :=
  let a1 : AI := { a with moves_made := insert cell a.moves_made }
  let a2 : AI := AI.mark_safe a1 cell
  { a2 with knowledge :=
      a2.knowledge ++ [⟨neighbors a.height a.width cell, count, cell⟩] }

/-- `MinesweeperAI.add_knowledge(cell, count)` (the `observe` operation):
prefix, initial `update_knowledge`, then the fixed-point loop. -/
def add_knowledge (a : AI) (cell : Cell) (count : ℤ) : AI :=
  loopGo (fuelBound a.height a.width) (uk (obsPrep a cell count))

/-- The `board` set built inside `make_random_move`: note the source iterates
`i in range(self.width)` and `j in range(self.height)` (transposed relative to
the `(row, column)` convention used everywhere else in the file). -/
def pyRandBoard (a : AI) : Finset Cell :=
  ((List.range a.width).flatMap
    (fun i => (List.range a.height).map (fun j => ((i : ℤ), (j : ℤ))))).toFinset

/-- The candidate set `not_mine = board - self.mines - self.moves_made` from
which `make_random_move` draws uniformly (returning a cell iff it is
non-empty). -/
def randCandidates (a : AI) : Finset Cell :=
  (pyRandBoard a \ a.mines) \ a.moves_made

/-- The coordinate embedding `(i, j) ↦ ((i : ℤ), (j : ℤ))`. -/
def natPairCell : ℕ × ℕ ↪ Cell :=
  ⟨fun p => ((p.1 : ℤ), (p.2 : ℤ)), by
    intro p q hpq
    have h1 : ((p.1 : ℤ)) = ((q.1 : ℤ)) := congrArg Prod.fst hpq
    have h2 : ((p.2 : ℤ)) = ((q.2 : ℤ)) := congrArg Prod.snd hpq
    have h1' : p.1 = q.1 := by exact_mod_cast h1
    have h2' : p.2 = q.2 := by exact_mod_cast h2
    exact Prod.ext h1' h2'⟩

/-- The set of genuine board cells: rows `0..height-1`, columns `0..width-1`
(the spec's notion of "all board cells"). -/
def boardCells (h w : ℕ) : Finset Cell :=
  (Finset.range h ×ˢ Finset.range w).map natPairCell

/-- Modelled from the spec: `make_random_move`'s candidate set as §4.3 words
it — "all board cells not in `moves_made` and not in `mines`", with board
cells being rows `0..height-1` and columns `0..width-1`.  Used only to compare
against the source's `randCandidates`. -/
def specRandCandidates (a : AI) : Finset Cell :=
  (boardCells a.height a.width \ a.moves_made) \ a.mines

/-- The family of cell sets occurring in a knowledge list (the quantity
`remove_duplicates` deduplicates on). -/
def cellSets (k : List Sentence) : Finset (Finset Cell) :=
  (k.map Sentence.cells).toFinset

/-- All sentences range over genuine board cells.  This holds for every state
the driver can reach (neighbour sentences are bounds-checked and derived
sentences only shrink), and is the only assumption the termination argument
needs. -/
abbrev InvBoard (a : AI) : Prop :=
  ∀ s ∈ a.knowledge, s.cells ⊆ boardCells a.height a.width

/-- The structural facts true of every `update_knowledge` output: non-empty
cell sets, pairwise distinct cell sets, and cell sets disjoint from
`safes ∪ mines`. -/
def UkProps (a : AI) : Prop :=
  (∀ s ∈ a.knowledge, s.cells ≠ ∅) ∧
  (a.knowledge.map Sentence.cells).Nodup ∧
  (∀ s ∈ a.knowledge, Disjoint s.cells (a.safes ∪ a.mines))

/-- Board cells not yet proven safe or mine. -/
def unknowns (a : AI) : ℕ :=
  ((boardCells a.height a.width) \ (a.safes ∪ a.mines)).card

/-- The loop variant: lexicographic in (unresolved board cells, distinct cell
sets not yet present), packed into one natural number. -/
def measureAI (a : AI) : ℕ :=
  unknowns a * (2 ^ (a.height * a.width) + 1) +
    (2 ^ (a.height * a.width) - (cellSets a.knowledge).card)

/-- States reachable from a fresh `MinesweeperAI` by a finite sequence of
`add_knowledge` (observe) calls. -/
inductive Reach : AI → Prop
  | start (h w : ℕ) : Reach (initAI h w)
  | obs (a : AI) (cell : Cell) (count : ℤ) :
      Reach a → Reach (add_knowledge a cell count)

/-! ### Basic facts about the sentence queries and marks -/

theorem known_safes_subset (s : Sentence) : s.known_safes ⊆ s.cells := by
  unfold Sentence.known_safes
  split_ifs
  · exact Finset.Subset.refl _
  · exact Finset.empty_subset _

theorem known_mines_subset (s : Sentence) : s.known_mines ⊆ s.cells := by
  unfold Sentence.known_mines
  split_ifs
  · exact Finset.Subset.refl _
  · exact Finset.empty_subset _

theorem mark_safe_idem (s : Sentence) (c : Cell) :
    (s.mark_safe c).mark_safe c = s.mark_safe c := by
  simp [mark_safe_eq, Finset.erase_idem]

theorem mark_mine_idem (s : Sentence) (c : Cell) :
    (s.mark_mine c).mark_mine c = s.mark_mine c := by
  simp [mark_mine_eq, Finset.erase_idem]

theorem map_twice {f : Sentence → Sentence} (hf : ∀ s, f (f s) = f s)
    (k : List Sentence) : (k.map f).map f = k.map f := by
  induction k with
  | nil => rfl
  | cons s k ih => simp [hf, ih]

/-! ### Membership in a subset-difference pass -/

theorem inferPass_mem_intro (k : List Sentence) (A B : Sentence)
    (hA : A ∈ k) (hB : B ∈ k) (hne : ¬ Sentence.pyEq A B)
    (hsub : A.cells ⊆ B.cells) (hd : B.cells \ A.cells ≠ ∅)
    (hfresh : ∀ t ∈ k, B.cells \ A.cells ≠ t.cells) :
    (⟨B.cells \ A.cells, B.count - A.count, A.mc⟩ : Sentence) ∈ inferPass k := by
  unfold inferPass
  rw [List.mem_flatMap]
  refine ⟨A, hA, ?_⟩
  rw [List.mem_flatMap]
  refine ⟨B, hB, ?_⟩
  rw [if_pos ⟨hne, hsub, hd, hfresh⟩]
  exact List.mem_singleton.mpr rfl

/-! ### Claim C1 -/

/-- Sentence `A` of the C1 scenario: `{(0,0),(0,1),(1,0)} = 2`. -/
def sC1A : Sentence :=
  ⟨{((0:ℤ),(0:ℤ)), ((0:ℤ),(1:ℤ)), ((1:ℤ),(0:ℤ))}, 2, ((0:ℤ),(0:ℤ))⟩

/-- Sentence `B` of the C1 scenario: `{(0,0),(0,1),(1,0),(1,1)} = 1`. -/
def sC1B : Sentence :=
  ⟨{((0:ℤ),(0:ℤ)), ((0:ℤ),(1:ℤ)), ((1:ℤ),(0:ℤ)), ((1:ℤ),(1:ℤ))}, 1,
   ((7:ℤ),(7:ℤ))⟩

/-- The two-sentence knowledge base of the C1 scenario: `A.cells ⊆ B.cells`
and `B.count - A.count = -1 < 0`. -/
def s0C1 : AI := ⟨2, 2, ∅, ∅, ∅, [sC1A, sC1B]⟩

/-- Claim C1 is false on the code: with `A = {(0,0),(0,1),(1,0)} = 2` and
`B = {(0,0),(0,1),(1,0),(1,1)} = 1` in the knowledge base (`A.cells ⊆
B.cells`, `B.count - A.count = -1 < 0`), running the resolution/propagation
loop of `add_knowledge` returns normally (there is no error path anywhere in
the embedding) and the derived sentence `{(1,1)} = -1` over `B.cells -
A.cells` IS inserted into `knowledge` and is still there at the fixed point. -/
theorem c1_counterexample :
    (⟨{((1:ℤ),(1:ℤ))}, -1, ((0:ℤ),(0:ℤ))⟩ : Sentence) ∈
      (loopGo (fuelBound 2 2) (uk s0C1)).knowledge := by decide

/-- Claim C1 amended: when two distinct live sentences `A`, `B` with
`A.cells ⊆ B.cells` have `B.count - A.count` negative or exceeding
`|B.cells - A.cells|`, the subset-difference step of `add_knowledge` raises
no contradiction error; it inserts the derived sentence over
`B.cells - A.cells` with count `B.count - A.count` into the pass output
exactly as in the consistent case (subject only to the non-emptiness and
fresh-cell-set checks). -/
theorem c1_amended_inserts_inconsistent_difference (k : List Sentence)
    (A B : Sentence) (hA : A ∈ k) (hB : B ∈ k) (hne : ¬ Sentence.pyEq A B)
    (hsub : A.cells ⊆ B.cells) (hd : B.cells \ A.cells ≠ ∅)
    (hfresh : ∀ t ∈ k, B.cells \ A.cells ≠ t.cells)
    (_hbad : B.count - A.count < 0 ∨
      ((B.cells \ A.cells).card : ℤ) < B.count - A.count) :
    (⟨B.cells \ A.cells, B.count - A.count, A.mc⟩ : Sentence) ∈ inferPass k := by
  exact inferPass_mem_intro k A B hA hB hne hsub hd hfresh

/-- Witness for `c1_amended_inserts_inconsistent_difference` at the concrete
sentences of `s0C1`. -/
theorem c1_amended_witness :
    (sC1A ∈ s0C1.knowledge) ∧ (sC1B ∈ s0C1.knowledge) ∧
    (¬ Sentence.pyEq sC1A sC1B) ∧ (sC1A.cells ⊆ sC1B.cells) ∧
    (sC1B.cells \ sC1A.cells ≠ ∅) ∧
    (∀ t ∈ s0C1.knowledge, sC1B.cells \ sC1A.cells ≠ t.cells) ∧
    (sC1B.count - sC1A.count < 0) ∧
    (⟨sC1B.cells \ sC1A.cells, sC1B.count - sC1A.count, sC1A.mc⟩ : Sentence) ∈
      inferPass s0C1.knowledge :=
  ⟨by decide, by decide, by decide, by decide, by decide, by decide, by decide,
    c1_amended_inserts_inconsistent_difference s0C1.knowledge sC1A sC1B
      (by decide) (by decide) (by decide) (by decide) (by decide) (by decide)
      (Or.inl (by decide))⟩

/-! ### Claim C5 -/

/-- The two-sentence knowledge base of the C5 scenario. -/
def s0C5 : AI := ⟨2, 2, ∅, ∅, ∅,
  [⟨{((0:ℤ),(0:ℤ)), ((0:ℤ),(1:ℤ)), ((1:ℤ),(0:ℤ))}, 1, ((5:ℤ),(5:ℤ))⟩,
   ⟨{((0:ℤ),(0:ℤ)), ((0:ℤ),(1:ℤ))}, 1, ((9:ℤ),(9:ℤ))⟩]⟩

/-- Claim C5: with sentences `{(0,0),(0,1),(1,0)} = 1` and `{(0,0),(0,1)} = 1`
in the knowledge base, the subset-difference pass derives the new sentence
`{(1,0)} = 0`, and running the resolution/propagation loop of `add_knowledge`
to its fixed point places `(1,0)` into `safes`. -/
theorem c5_subset_resolution_example :
    ((⟨{((1:ℤ),(0:ℤ))}, 0, ((9:ℤ),(9:ℤ))⟩ : Sentence) ∈
      inferPass (uk s0C5).knowledge) ∧
    ((1:ℤ),(0:ℤ)) ∈ (loopGo (fuelBound 2 2) (uk s0C5)).safes := by decide

/-! ### Claim C6 -/

/-- Claim C6: `known_safes` returns exactly `cells` when `count == 0` and `∅`
otherwise; `known_mines` returns exactly `cells` when `len(cells) == count`
and `∅` otherwise.  (Both are pure functions of the sentence in this
embedding, matching the side-effect-free queries in the source.) -/
theorem c6_trivial_queries (S : Sentence) :
    (S.count = 0 → S.known_safes = S.cells) ∧
    (S.count ≠ 0 → S.known_safes = ∅) ∧
    (((S.cells.card : ℤ) = S.count) → S.known_mines = S.cells) ∧
    (((S.cells.card : ℤ) ≠ S.count) → S.known_mines = ∅) := by
  refine ⟨?_, ?_, ?_, ?_⟩ <;> intro h <;>
    simp [Sentence.known_safes, Sentence.known_mines, h]

/-- Witness for `c6_trivial_queries` on the concrete sentences
`{(0,0)} = 0` and `{(0,0)} = 1`. -/
theorem c6_witness :
    (Sentence.known_safes ⟨{((0:ℤ),(0:ℤ))}, 0, ((0:ℤ),(0:ℤ))⟩ =
      ({((0:ℤ),(0:ℤ))} : Finset Cell)) ∧
    (Sentence.known_mines ⟨{((0:ℤ),(0:ℤ))}, 0, ((0:ℤ),(0:ℤ))⟩ = ∅) ∧
    (Sentence.known_safes ⟨{((0:ℤ),(0:ℤ))}, 1, ((0:ℤ),(0:ℤ))⟩ = ∅) ∧
    (Sentence.known_mines ⟨{((0:ℤ),(0:ℤ))}, 1, ((0:ℤ),(0:ℤ))⟩ =
      ({((0:ℤ),(0:ℤ))} : Finset Cell)) :=
  ⟨(c6_trivial_queries _).1 (by decide),
   (c6_trivial_queries _).2.2.2 (by decide),
   (c6_trivial_queries _).2.1 (by decide),
   (c6_trivial_queries _).2.2.1 (by decide)⟩

/-! ### Claim C7 -/

/-- Claim C7 names a code bug: `make_random_move` builds its board with
`for i in range(self.width): for j in range(self.height)`, i.e. transposed.
On a `height = 1`, `width = 3` board with nothing yet marked or played, the
candidate set it draws from contains `(1,0)` — not a board cell at all since
row `1 ≥ height` — and differs from the claimed set
"board cells minus `moves_made` minus `mines`". -/
theorem c7_random_move_board_transposed :
    (((1:ℤ),(0:ℤ)) ∈ randCandidates (initAI 1 3)) ∧
    (((1:ℤ),(0:ℤ)) ∉ boardCells 1 3) ∧
    randCandidates (initAI 1 3) ≠ specRandCandidates (initAI 1 3) := by decide

/-! ### Claim C9 -/

/-- Claim C9: `MinesweeperAI.mark_safe` and `MinesweeperAI.mark_mine` are
idempotent — a second call with the same cell leaves `safes`, `mines`,
`moves_made` and every sentence of `knowledge` exactly as after the first. -/
theorem c9_marking_idempotent (a : AI) (c : Cell) :
    (a.mark_safe c).mark_safe c = a.mark_safe c ∧
    (a.mark_mine c).mark_mine c = a.mark_mine c := by
  constructor
  · unfold AI.mark_safe
    refine AI.ext rfl rfl rfl rfl ?_ ?_
    · simp [Finset.insert_idem]
    · exact map_twice (fun s => mark_safe_idem s c) a.knowledge
  · unfold AI.mark_mine
    refine AI.ext rfl rfl rfl ?_ rfl ?_
    · simp [Finset.insert_idem]
    · exact map_twice (fun s => mark_mine_idem s c) a.knowledge

/-! ### Claim C10 -/

/-- Claim C10: the guard `common_cells == 3` of the second inner loop of
`add_knowledge` compares a set with an integer, which in Python is always
`False`; hence the branch that would add the set-valued differences
`sentence.cells - other_sentence.cells` / `other_sentence.cells -
sentence.cells` to `self.mines` / `self.safes` never fires, on any knowledge
list: the list of additions it would make is always empty, and `mines` and
`safes` only ever receive `(row, column)` pairs. -/
theorem c10_dead_branch_unreachable (k : List Sentence) :
    deadBranchAdds k = [] := by
  unfold deadBranchAdds
  rw [List.flatMap_eq_nil_iff]
  intro s _
  rw [List.flatMap_eq_nil_iff]
  intro o _
  rw [if_neg]
  intro h
  simpa [pySetEqNat] using h.2.1

/-! ### Closed forms for the broadcast marking folds -/

theorem inter_insert_card (cells lF : Finset Cell) (c : Cell) :
    ((cells ∩ insert c lF).card : ℤ) =
      ((cells.erase c ∩ lF).card : ℤ) + (if c ∈ cells then 1 else 0) := by
  by_cases hc : c ∈ cells
  · have he : cells ∩ insert c lF = insert c (cells.erase c ∩ lF) := by
      ext x
      by_cases hx : x = c <;>
        simp only [hx, Finset.mem_inter, Finset.mem_insert, Finset.mem_erase] <;>
        tauto
    rw [he, Finset.card_insert_of_not_mem (by simp)]
    simp [hc]
  · have he : cells ∩ insert c lF = cells.erase c ∩ lF := by
      rw [Finset.erase_eq_of_not_mem hc]
      ext x
      simp only [Finset.mem_inter, Finset.mem_insert]
      constructor
      · rintro ⟨hx, rfl | hl⟩
        · exact absurd hx hc
        · exact ⟨hx, hl⟩
      · rintro ⟨hx, hl⟩
        exact ⟨hx, Or.inr hl⟩
    rw [he]
    simp [hc]

theorem foldl_mark_safe_spec (l : List Cell) (s : Sentence) :
    (l.foldl Sentence.mark_safe s).cells = s.cells \ l.toFinset ∧
    (l.foldl Sentence.mark_safe s).count = s.count ∧
    (l.foldl Sentence.mark_safe s).mc = s.mc := by
  induction l generalizing s with
  | nil => simp
  | cons c l ih =>
      simp only [List.foldl_cons, List.toFinset_cons]
      obtain ⟨h1, h2, h3⟩ := ih (s.mark_safe c)
      refine ⟨?_, ?_, ?_⟩
      · rw [h1, mark_safe_eq]
        show s.cells.erase c \ l.toFinset = _
        ext x
        simp only [Finset.mem_sdiff, Finset.mem_erase, Finset.mem_insert]
        tauto
      · rw [h2, mark_safe_eq]
      · rw [h3, mark_safe_eq]

theorem foldl_mark_mine_spec (l : List Cell) (s : Sentence) :
    (l.foldl Sentence.mark_mine s).cells = s.cells \ l.toFinset ∧
    (l.foldl Sentence.mark_mine s).count =
      s.count - ((s.cells ∩ l.toFinset).card : ℤ) ∧
    (l.foldl Sentence.mark_mine s).mc = s.mc := by
  induction l generalizing s with
  | nil => simp
  | cons c l ih =>
      simp only [List.foldl_cons, List.toFinset_cons]
      obtain ⟨h1, h2, h3⟩ := ih (s.mark_mine c)
      refine ⟨?_, ?_, ?_⟩
      · rw [h1, mark_mine_eq]
        show s.cells.erase c \ l.toFinset = _
        ext x
        simp only [Finset.mem_sdiff, Finset.mem_erase, Finset.mem_insert]
        tauto
      · rw [h2, mark_mine_eq]
        show (s.count - _) - _ = _
        rw [inter_insert_card s.cells l.toFinset c]
        ring
      · rw [h3, mark_mine_eq]

theorem markSafesF_eq_foldl (s : Sentence) (S : Finset Cell) :
    markSafesF s S = S.toList.foldl Sentence.mark_safe s := by
  unfold markSafesF
  rw [← Finset.coe_toList S, Multiset.coe_foldl]

theorem markMinesF_eq_foldl (s : Sentence) (M : Finset Cell) :
    markMinesF s M = M.toList.foldl Sentence.mark_mine s := by
  unfold markMinesF
  rw [← Finset.coe_toList M, Multiset.coe_foldl]

theorem markSafesF_spec (s : Sentence) (S : Finset Cell) :
    (markSafesF s S).cells = s.cells \ S ∧
    (markSafesF s S).count = s.count ∧ (markSafesF s S).mc = s.mc := by
  rw [markSafesF_eq_foldl]
  have h := foldl_mark_safe_spec S.toList s
  rwa [Finset.toList_toFinset] at h

theorem markMinesF_spec (s : Sentence) (M : Finset Cell) :
    (markMinesF s M).cells = s.cells \ M ∧
    (markMinesF s M).count = s.count - ((s.cells ∩ M).card : ℤ) ∧
    (markMinesF s M).mc = s.mc := by
  rw [markMinesF_eq_foldl]
  have h := foldl_mark_mine_spec M.toList s
  rwa [Finset.toList_toFinset] at h

theorem markBoth_cells (s : Sentence) (S M : Finset Cell) :
    (markBoth s S M).cells = (s.cells \ S) \ M := by
  unfold markBoth
  rw [(markMinesF_spec _ M).1, (markSafesF_spec s S).1]

theorem markBoth_count (s : Sentence) (S M : Finset Cell) :
    (markBoth s S M).count =
      s.count - (((s.cells \ S) ∩ M).card : ℤ) := by
  unfold markBoth
  rw [(markMinesF_spec _ M).2.1, (markSafesF_spec s S).2.1,
      (markSafesF_spec s S).1]

theorem markBoth_mc (s : Sentence) (S M : Finset Cell) :
    (markBoth s S M).mc = s.mc := by
  unfold markBoth
  rw [(markMinesF_spec _ M).2.2, (markSafesF_spec s S).2.2]

theorem markBoth_eq_self (s : Sentence) (S M : Finset Cell)
    (h : Disjoint s.cells (S ∪ M)) : markBoth s S M = s := by
  obtain ⟨hS, hM⟩ := Finset.disjoint_union_right.mp h
  refine Sentence.ext ?_ ?_ (markBoth_mc s S M)
  · rw [markBoth_cells, Finset.sdiff_eq_self_of_disjoint hS,
        Finset.sdiff_eq_self_of_disjoint hM]
  · rw [markBoth_count, Finset.sdiff_eq_self_of_disjoint hS,
        Finset.disjoint_iff_inter_eq_empty.mp hM]
    simp

/-! ### Collection-fold membership and monotonicity -/

theorem mem_collectFold (f : Sentence → Finset Cell) (k : List Sentence)
    (acc : Finset Cell) (x : Cell) :
    x ∈ collectFold f k acc ↔ x ∈ acc ∨ ∃ s ∈ k, x ∈ f s := by
  induction k generalizing acc with
  | nil => simp [collectFold]
  | cons s k ih =>
      show x ∈ collectFold f k (acc ∪ f s) ↔ _
      rw [ih]
      simp only [Finset.mem_union, List.mem_cons]
      constructor
      · rintro ((h | h) | ⟨t, ht, hx⟩)
        · exact Or.inl h
        · exact Or.inr ⟨s, Or.inl rfl, h⟩
        · exact Or.inr ⟨t, Or.inr ht, hx⟩
      · rintro (h | ⟨t, rfl | ht, hx⟩)
        · exact Or.inl (Or.inl h)
        · exact Or.inl (Or.inr hx)
        · exact Or.inr ⟨t, ht, hx⟩

theorem safes_subset_ukSafes (a : AI) : a.safes ⊆ ukSafes a :=
  fun x hx => (mem_collectFold _ _ _ x).mpr (Or.inl hx)

theorem mines_subset_ukMines (a : AI) : a.mines ⊆ ukMines a :=
  fun x hx => (mem_collectFold _ _ _ x).mpr (Or.inl hx)

theorem mem_ukSafes (a : AI) (x : Cell) :
    x ∈ ukSafes a ↔ x ∈ a.safes ∨ ∃ s ∈ a.knowledge, x ∈ s.known_safes :=
  mem_collectFold _ _ _ x

theorem mem_ukMines (a : AI) (x : Cell) :
    x ∈ ukMines a ↔ x ∈ a.mines ∨ ∃ s ∈ a.knowledge, x ∈ s.known_mines :=
  mem_collectFold _ _ _ x

/-! ### `remove_duplicates` and the shape of `update_knowledge` output -/

theorem removeDups_subset (k : List Sentence) (seen : Finset (Finset Cell)) :
    ∀ t ∈ removeDups k seen, t ∈ k := by
  induction k generalizing seen with
  | nil => intro t ht; simp [removeDups] at ht
  | cons s k ih =>
      intro t ht
      unfold removeDups at ht
      split_ifs at ht with h
      · exact List.mem_cons_of_mem _ (ih seen t ht)
      · rcases List.mem_cons.mp ht with rfl | ht'
        · exact List.mem_cons_self _ _
        · exact List.mem_cons_of_mem _ (ih _ t ht')

theorem ukKnowledge_mem (a : AI) :
    ∀ t ∈ ukKnowledge a, ∃ s ∈ a.knowledge,
      t = markBoth s (ukSafes a) (ukMines a) ∧ t.cells ≠ ∅ := by
  intro t ht
  have h1 := removeDups_subset _ _ t ht
  rw [List.mem_filter] at h1
  obtain ⟨hmem, hdec⟩ := h1
  rw [List.mem_map] at hmem
  obtain ⟨s, hs, rfl⟩ := hmem
  exact ⟨s, hs, rfl, of_decide_eq_true hdec⟩

theorem uk_knowledge_nonempty (a : AI) :
    ∀ t ∈ (uk a).knowledge, t.cells ≠ ∅ := by
  intro t ht
  obtain ⟨s, _, _, hne⟩ := ukKnowledge_mem a t ht
  exact hne

theorem uk_knowledge_disjoint (a : AI) :
    ∀ t ∈ (uk a).knowledge, Disjoint t.cells ((uk a).safes ∪ (uk a).mines) := by
  intro t ht
  obtain ⟨s, _, rfl, _⟩ := ukKnowledge_mem a t ht
  rw [markBoth_cells]
  refine Finset.disjoint_union_right.mpr ⟨?_, ?_⟩
  · exact Finset.disjoint_of_subset_left (Finset.sdiff_subset) Finset.sdiff_disjoint
  · exact Finset.sdiff_disjoint

/-! ### Shape of the loop: every intermediate state is an `update_knowledge`
image, `moves_made` never changes, `safes`/`mines` only grow -/

/-- A state that is the output of `update_knowledge`. -/
def IsUk (a : AI) : Prop := ∃ b, a = uk b

theorem isUk_uk (a : AI) : IsUk (uk a) := ⟨a, rfl⟩

theorem isUk_stepF (a : AI) : IsUk (stepF a) :=
  ⟨{ a with knowledge := a.knowledge ++ inferPass a.knowledge }, rfl⟩

theorem isUk_loopGo (n : ℕ) (a : AI) (h : IsUk a) : IsUk (loopGo n a) := by
  induction n generalizing a with
  | zero => exact h
  | succ n ih =>
      unfold loopGo
      split_ifs
      · exact isUk_stepF a
      · exact ih (stepF a) (isUk_stepF a)

theorem isUk_add_knowledge (a : AI) (cell : Cell) (count : ℤ) :
    IsUk (add_knowledge a cell count) :=
  isUk_loopGo _ _ (isUk_uk _)

theorem stepF_moves (a : AI) : (stepF a).moves_made = a.moves_made := rfl

theorem loopGo_moves (n : ℕ) (a : AI) :
    (loopGo n a).moves_made = a.moves_made := by
  induction n generalizing a with
  | zero => rfl
  | succ n ih =>
      unfold loopGo
      split_ifs
      · rfl
      · rw [ih (stepF a), stepF_moves]

theorem uk_safes_mono (a : AI) : a.safes ⊆ (uk a).safes :=
  safes_subset_ukSafes a

theorem uk_mines_mono (a : AI) : a.mines ⊆ (uk a).mines :=
  mines_subset_ukMines a

theorem stepF_safes_mono (a : AI) : a.safes ⊆ (stepF a).safes :=
  safes_subset_ukSafes { a with knowledge := a.knowledge ++ inferPass a.knowledge }

theorem stepF_mines_mono (a : AI) : a.mines ⊆ (stepF a).mines :=
  mines_subset_ukMines { a with knowledge := a.knowledge ++ inferPass a.knowledge }

theorem loopGo_safes_mono (n : ℕ) (a : AI) : a.safes ⊆ (loopGo n a).safes := by
  induction n generalizing a with
  | zero => exact Finset.Subset.refl _
  | succ n ih =>
      unfold loopGo
      split_ifs
      · exact stepF_safes_mono a
      · exact (stepF_safes_mono a).trans (ih (stepF a))

theorem add_knowledge_moves (a : AI) (cell : Cell) (count : ℤ) :
    (add_knowledge a cell count).moves_made = insert cell a.moves_made := by
  unfold add_knowledge
  rw [loopGo_moves]
  rfl

theorem add_knowledge_safes_mem (a : AI) (cell : Cell) (count : ℤ) :
    cell ∈ (add_knowledge a cell count).safes := by
  unfold add_knowledge
  apply loopGo_safes_mono
  apply uk_safes_mono
  show cell ∈ insert cell a.safes
  exact Finset.mem_insert_self cell a.safes

/-! ### Claim C3 -/

/-- Claim C3 is false on the code: the single observation `add_knowledge((0,0),
5)` on a fresh 2×2 `MinesweeperAI` leaves, at the quiescent state, the
sentence `{(0,1),(1,0),(1,1)} = 5` in `knowledge`, whose count exceeds its
cell-set size — `add_knowledge` never validates `0 ≤ count ≤ |cells|`. -/
theorem c3_counterexample :
    ∃ s ∈ (add_knowledge (initAI 2 2) ((0:ℤ),(0:ℤ)) 5).knowledge,
      ¬ (0 ≤ s.count ∧ s.count ≤ (s.cells.card : ℤ)) := by decide

/-- Claim C3 amended: at every quiescent state — immediately after any call to
`add_knowledge` returns — every sentence remaining in `knowledge` has a
non-empty cell set that is disjoint from `safes ∪ mines`.  (The count-bounds
part `0 ≤ count ≤ |cells|` of the original claim is NOT maintained by the
code, see `c3_counterexample`.) -/
theorem c3_amended_quiescent_sentences (a : AI) (cell : Cell) (count : ℤ)
    (s : Sentence) (hs : s ∈ (add_knowledge a cell count).knowledge) :
    s.cells.Nonempty ∧
    Disjoint s.cells
      ((add_knowledge a cell count).safes ∪ (add_knowledge a cell count).mines) := by
  obtain ⟨b, hb⟩ := isUk_add_knowledge a cell count
  rw [hb] at hs ⊢
  exact ⟨Finset.nonempty_iff_ne_empty.mpr (uk_knowledge_nonempty b s hs),
    uk_knowledge_disjoint b s hs⟩

/-- Witness for `c3_amended_quiescent_sentences` at the quiescent state of
`c3_counterexample`. -/
theorem c3_amended_witness :
    ((⟨{((0:ℤ),(1:ℤ)), ((1:ℤ),(0:ℤ)), ((1:ℤ),(1:ℤ))}, 5, ((0:ℤ),(0:ℤ))⟩ :
        Sentence) ∈ (add_knowledge (initAI 2 2) ((0:ℤ),(0:ℤ)) 5).knowledge) ∧
    ((⟨{((0:ℤ),(1:ℤ)), ((1:ℤ),(0:ℤ)), ((1:ℤ),(1:ℤ))}, 5, ((0:ℤ),(0:ℤ))⟩ :
        Sentence) : Sentence).cells.Nonempty ∧
    Disjoint
      (⟨{((0:ℤ),(1:ℤ)), ((1:ℤ),(0:ℤ)), ((1:ℤ),(1:ℤ))}, 5,
        ((0:ℤ),(0:ℤ))⟩ : Sentence).cells
      ((add_knowledge (initAI 2 2) ((0:ℤ),(0:ℤ)) 5).safes ∪
        (add_knowledge (initAI 2 2) ((0:ℤ),(0:ℤ)) 5).mines) :=
  ⟨by decide,
    (c3_amended_quiescent_sentences (initAI 2 2) ((0:ℤ),(0:ℤ)) 5 _ (by decide)).1,
    (c3_amended_quiescent_sentences (initAI 2 2) ((0:ℤ),(0:ℤ)) 5 _ (by decide)).2⟩

/-! ### Claim C4 -/

/-- Claim C4 is false on the code: `mark_mine((0,0))` followed by
`mark_safe((0,0))` — a legal sequence of the quantified operations — leaves
`(0,0)` in both `safes` and `mines`; no disjointness check exists anywhere. -/
theorem c4_counterexample :
    ((AI.mark_safe (AI.mark_mine (initAI 2 2) ((0:ℤ),(0:ℤ))) ((0:ℤ),(0:ℤ))).safes ∩
      (AI.mark_safe (AI.mark_mine (initAI 2 2) ((0:ℤ),(0:ℤ))) ((0:ℤ),(0:ℤ))).mines) ≠
      ∅ := by decide

/-- Claim C4 amended: `safes ∩ mines = ∅` holds in the initial state, and each
marking operation preserves it only under the proviso that the marked cell is
not already in the opposite set: `mark_safe(c)` preserves disjointness when
`c ∉ mines`, and `mark_mine(c)` when `c ∉ safes`.  Without the proviso the
invariant fails (`c4_counterexample`), since the code never checks it. -/
theorem c4_amended_disjointness_conditional :
    (∀ h w : ℕ, (initAI h w).safes ∩ (initAI h w).mines = ∅) ∧
    (∀ (a : AI) (c : Cell), a.safes ∩ a.mines = ∅ → c ∉ a.mines →
      (a.mark_safe c).safes ∩ (a.mark_safe c).mines = ∅) ∧
    (∀ (a : AI) (c : Cell), a.safes ∩ a.mines = ∅ → c ∉ a.safes →
      (a.mark_mine c).safes ∩ (a.mark_mine c).mines = ∅) := by
  refine ⟨fun h w => rfl, ?_, ?_⟩
  · intro a c hbase hc
    rw [Finset.eq_empty_iff_forall_not_mem]
    intro x hx
    rw [Finset.mem_inter] at hx
    obtain ⟨hx1, hx2⟩ := hx
    rcases Finset.mem_insert.mp hx1 with rfl | hx1
    · exact hc hx2
    · have hmem : x ∈ a.safes ∩ a.mines := Finset.mem_inter.mpr ⟨hx1, hx2⟩
      rw [hbase] at hmem
      exact Finset.not_mem_empty x hmem
  · intro a c hbase hc
    rw [Finset.eq_empty_iff_forall_not_mem]
    intro x hx
    rw [Finset.mem_inter] at hx
    obtain ⟨hx1, hx2⟩ := hx
    rcases Finset.mem_insert.mp hx2 with rfl | hx2
    · exact hc hx1
    · have hmem : x ∈ a.safes ∩ a.mines := Finset.mem_inter.mpr ⟨hx1, hx2⟩
      rw [hbase] at hmem
      exact Finset.not_mem_empty x hmem

/-- Witness for `c4_amended_disjointness_conditional` at a fresh 1×1 state. -/
theorem c4_amended_witness :
    ((initAI 1 1).safes ∩ (initAI 1 1).mines = ∅) ∧
    (((initAI 1 1).mark_safe ((0:ℤ),(0:ℤ))).safes ∩
      ((initAI 1 1).mark_safe ((0:ℤ),(0:ℤ))).mines = ∅) ∧
    (((initAI 1 1).mark_mine ((0:ℤ),(0:ℤ))).safes ∩
      ((initAI 1 1).mark_mine ((0:ℤ),(0:ℤ))).mines = ∅) :=
  ⟨c4_amended_disjointness_conditional.1 1 1,
    c4_amended_disjointness_conditional.2.1 _ _ (by decide) (by decide),
    c4_amended_disjointness_conditional.2.2 _ _ (by decide) (by decide)⟩

/-! ### Claim C8 -/

/-- Claim C8 is false on the code: observing the out-of-bounds cell `(5,5)` on
a fresh 1×1 board is not rejected — `add_knowledge` has no bounds check at
all, and the call mutates both `moves_made` and `safes`. -/
theorem c8_counterexample :
    (add_knowledge (initAI 1 1) ((5:ℤ),(5:ℤ)) 0).moves_made ≠
      (initAI 1 1).moves_made ∧
    (add_knowledge (initAI 1 1) ((5:ℤ),(5:ℤ)) 0).safes ≠ (initAI 1 1).safes := by
  decide

/-- Claim C8 amended: `add_knowledge` performs no bounds check on the observed
cell.  Even for a cell outside the board dimensions the call proceeds
normally: the cell is recorded in `moves_made` and marked safe (only the
generated sentence's neighbour set is bounds-filtered).  The observation is
not rejected and the state is mutated. -/
theorem c8_amended_no_bounds_check (a : AI) (cell : Cell) (count : ℤ)
    (_h : ¬ (0 ≤ cell.1 ∧ cell.1 < (a.height : ℤ) ∧
            0 ≤ cell.2 ∧ cell.2 < (a.width : ℤ))) :
    cell ∈ (add_knowledge a cell count).moves_made ∧
    cell ∈ (add_knowledge a cell count).safes := by
  constructor
  · rw [add_knowledge_moves]
    exact Finset.mem_insert_self cell a.moves_made
  · exact add_knowledge_safes_mem a cell count

/-- Witness for `c8_amended_no_bounds_check` at the state of
`c8_counterexample`. -/
theorem c8_amended_witness :
    (¬ (0 ≤ ((5:ℤ),(5:ℤ)).1 ∧ ((5:ℤ),(5:ℤ)).1 < ((initAI 1 1).height : ℤ) ∧
        0 ≤ ((5:ℤ),(5:ℤ)).2 ∧ ((5:ℤ),(5:ℤ)).2 < ((initAI 1 1).width : ℤ))) ∧
    ((5:ℤ),(5:ℤ)) ∈ (add_knowledge (initAI 1 1) ((5:ℤ),(5:ℤ)) 0).moves_made ∧
    ((5:ℤ),(5:ℤ)) ∈ (add_knowledge (initAI 1 1) ((5:ℤ),(5:ℤ)) 0).safes :=
  ⟨by decide, c8_amended_no_bounds_check (initAI 1 1) ((5:ℤ),(5:ℤ)) 0 (by decide)⟩

/-! ### Board cells, neighbour bounds, and the shape of a pass -/

theorem mem_boardCells (h w : ℕ) (x : Cell) :
    x ∈ boardCells h w ↔
      0 ≤ x.1 ∧ x.1 < (h : ℤ) ∧ 0 ≤ x.2 ∧ x.2 < (w : ℤ) := by
  unfold boardCells natPairCell
  rw [Finset.mem_map]
  constructor
  · rintro ⟨p, hp, rfl⟩
    rw [Finset.mem_product, Finset.mem_range, Finset.mem_range] at hp
    obtain ⟨h1, h2⟩ := hp
    refine ⟨?_, ?_, ?_, ?_⟩ <;> simp only [Function.Embedding.coeFn_mk] <;> omega
  · rintro ⟨h1, h2, h3, h4⟩
    refine ⟨(x.1.toNat, x.2.toNat), ?_, ?_⟩
    · rw [Finset.mem_product, Finset.mem_range, Finset.mem_range]
      constructor <;> omega
    · simp only [Function.Embedding.coeFn_mk]
      have e1 : (x.1.toNat : ℤ) = x.1 := Int.toNat_of_nonneg h1
      have e2 : (x.2.toNat : ℤ) = x.2 := Int.toNat_of_nonneg h3
      exact Prod.ext e1 e2

theorem boardCells_card (h w : ℕ) : (boardCells h w).card = h * w := by
  unfold boardCells
  rw [Finset.card_map, Finset.card_product, Finset.card_range, Finset.card_range]

theorem neighbors_subset_boardCells (h w : ℕ) (cell : Cell) :
    neighbors h w cell ⊆ boardCells h w := by
  intro x hx
  unfold neighbors at hx
  rw [Finset.mem_filter] at hx
  obtain ⟨_, _, h1, h2, h3, h4⟩ := hx
  rw [mem_boardCells]
  exact ⟨h1, h2, h3, h4⟩

theorem inferPass_mem_elim (k : List Sentence) (N : Sentence)
    (hN : N ∈ inferPass k) :
    ∃ s ∈ k, ∃ o ∈ k,
      N = ⟨o.cells \ s.cells, o.count - s.count, s.mc⟩ ∧
      o.cells \ s.cells ≠ ∅ ∧ (∀ t ∈ k, o.cells \ s.cells ≠ t.cells) ∧
      s.cells ⊆ o.cells ∧ ¬ Sentence.pyEq s o := by
  unfold inferPass at hN
  rw [List.mem_flatMap] at hN
  obtain ⟨s, hs, hN⟩ := hN
  rw [List.mem_flatMap] at hN
  obtain ⟨o, ho, hN⟩ := hN
  split_ifs at hN with hcond
  · obtain ⟨h1, h2, h3, h4⟩ := hcond
    rw [List.mem_singleton] at hN
    exact ⟨s, hs, o, ho, hN, h3, h4, h2, h1⟩
  · exact absurd hN (List.not_mem_nil N)

theorem mem_cellSets (k : List Sentence) (x : Finset Cell) :
    x ∈ cellSets k ↔ ∃ s ∈ k, s.cells = x := by
  unfold cellSets
  rw [List.mem_toFinset, List.mem_map]

/-! ### Invariant preservation: all sentences range over board cells -/

theorem obsPrep_knowledge (a : AI) (cell : Cell) (count : ℤ) :
    (obsPrep a cell count).knowledge =
      a.knowledge.map (fun s => s.mark_safe cell) ++
        [⟨neighbors a.height a.width cell, count, cell⟩] := rfl

theorem extend_inv (a : AI) (h : InvBoard a) :
    InvBoard { a with knowledge := a.knowledge ++ inferPass a.knowledge } := by
  intro s hs
  rcases List.mem_append.mp hs with h1 | h1
  · exact h s h1
  · obtain ⟨p, hp, o, ho, rfl, _, _, _, _⟩ := inferPass_mem_elim _ _ h1
    exact Finset.sdiff_subset.trans (h o ho)

theorem uk_inv (a : AI) (h : InvBoard a) : InvBoard (uk a) := by
  intro t ht
  obtain ⟨s, hs, rfl, _⟩ := ukKnowledge_mem a t ht
  rw [markBoth_cells]
  exact (Finset.sdiff_subset.trans Finset.sdiff_subset).trans (h s hs)

theorem stepF_inv (a : AI) (h : InvBoard a) : InvBoard (stepF a) :=
  uk_inv _ (extend_inv a h)

theorem loopGo_inv (n : ℕ) (a : AI) (h : InvBoard a) : InvBoard (loopGo n a) := by
  induction n generalizing a with
  | zero => exact h
  | succ n ih =>
      unfold loopGo
      split_ifs
      · exact stepF_inv a h
      · exact ih (stepF a) (stepF_inv a h)

theorem obsPrep_inv (a : AI) (cell : Cell) (count : ℤ) (h : InvBoard a) :
    InvBoard (obsPrep a cell count) := by
  intro s hs
  rw [obsPrep_knowledge] at hs
  rcases List.mem_append.mp hs with h1 | h1
  · rw [List.mem_map] at h1
    obtain ⟨t, ht, rfl⟩ := h1
    rw [mark_safe_eq]
    show t.cells.erase cell ⊆ _
    exact (Finset.erase_subset _ _).trans (h t ht)
  · rw [List.mem_singleton] at h1
    subst h1
    show neighbors a.height a.width cell ⊆ _
    exact neighbors_subset_boardCells a.height a.width cell

theorem reach_inv (a : AI) (hR : Reach a) : InvBoard a := by
  induction hR with
  | start h w => intro s hs; simp [initAI] at hs
  | obs a cell count _ ih =>
      exact loopGo_inv _ _ (uk_inv _ (obsPrep_inv a cell count ih))

/-! ### Distinctness of cell sets after `remove_duplicates` -/

theorem removeDups_cells_nodup (k : List Sentence) (seen : Finset (Finset Cell)) :
    ((removeDups k seen).map Sentence.cells).Nodup ∧
    ∀ t ∈ removeDups k seen, t.cells ∉ seen := by
  induction k generalizing seen with
  | nil => simp [removeDups]
  | cons s rest ih =>
      unfold removeDups
      split_ifs with h
      · exact ih seen
      · obtain ⟨ih1, ih2⟩ := ih (insert s.cells seen)
        constructor
        · simp only [List.map_cons, List.nodup_cons]
          refine ⟨?_, ih1⟩
          intro hmem
          rw [List.mem_map] at hmem
          obtain ⟨t, ht, hteq⟩ := hmem
          exact (ih2 t ht) (by rw [hteq]; exact Finset.mem_insert_self _ _)
        · intro t ht
          rcases List.mem_cons.mp ht with rfl | ht'
          · exact h
          · intro hts
            exact (ih2 t ht') (Finset.mem_insert_of_mem hts)

theorem uk_cells_nodup (a : AI) :
    ((uk a).knowledge.map Sentence.cells).Nodup :=
  (removeDups_cells_nodup _ ∅).1

theorem ukProps_uk (a : AI) : UkProps (uk a) :=
  ⟨uk_knowledge_nonempty a, uk_cells_nodup a, uk_knowledge_disjoint a⟩

theorem ukProps_stepF (a : AI) : UkProps (stepF a) :=
  ukProps_uk { a with knowledge := a.knowledge ++ inferPass a.knowledge }

theorem removeDups_cellSets (k : List Sentence) (seen : Finset (Finset Cell)) :
    cellSets (removeDups k seen) = cellSets k \ seen := by
  induction k generalizing seen with
  | nil => simp [removeDups, cellSets]
  | cons s rest ih =>
      unfold removeDups
      split_ifs with h
      · rw [ih]
        ext x
        simp only [cellSets, List.map_cons, List.toFinset_cons, Finset.mem_sdiff,
          Finset.mem_insert, List.mem_toFinset]
        constructor
        · rintro ⟨hx, hns⟩
          exact ⟨Or.inr hx, hns⟩
        · rintro ⟨rfl | hx, hns⟩
          · exact absurd h hns
          · exact ⟨hx, hns⟩
      · show cellSets (s :: removeDups rest (insert s.cells seen)) = _
        ext x
        simp only [cellSets, List.map_cons, List.toFinset_cons, Finset.mem_insert,
          List.mem_toFinset, Finset.mem_sdiff]
        have hx' := ih (insert s.cells seen)
        constructor
        · rintro (rfl | hx)
          · exact ⟨Or.inl rfl, h⟩
          · have : x ∈ cellSets rest \ insert s.cells seen := by
              rw [← hx']
              simpa [cellSets] using hx
            rw [Finset.mem_sdiff, Finset.mem_insert] at this
            exact ⟨Or.inr (by simpa [cellSets] using this.1),
              fun hxs => this.2 (Or.inr hxs)⟩
        · rintro ⟨rfl | hx, hns⟩
          · exact Or.inl rfl
          · by_cases hxs : x = s.cells
            · exact Or.inl hxs
            · right
              have : x ∈ cellSets rest \ insert s.cells seen := by
                rw [Finset.mem_sdiff, Finset.mem_insert]
                refine ⟨by simpa [cellSets] using hx, ?_⟩
                rintro (h1 | h1)
                · exact hxs h1
                · exact hns h1
              rw [← hx'] at this
              simpa [cellSets] using this

theorem knowledge_length_eq (k : List Sentence)
    (hnd : (k.map Sentence.cells).Nodup) : k.length = (cellSets k).card := by
  unfold cellSets
  rw [List.toFinset_card_of_nodup hnd, List.length_map]

theorem cellSets_card_le (k : List Sentence) (B : Finset Cell)
    (hsub : ∀ s ∈ k, s.cells ⊆ B) (hne : ∀ s ∈ k, s.cells ≠ ∅) :
    (cellSets k).card ≤ 2 ^ B.card - 1 := by
  have h1 : cellSets k ⊆ B.powerset.erase ∅ := by
    intro x hx
    rw [mem_cellSets] at hx
    obtain ⟨s, hs, rfl⟩ := hx
    rw [Finset.mem_erase, Finset.mem_powerset]
    exact ⟨hne s hs, hsub s hs⟩
  have h2 := Finset.card_le_card h1
  rwa [Finset.card_erase_of_mem (Finset.empty_mem_powerset B),
    Finset.card_powerset] at h2

/-! ### The loop variant decreases across every productive iteration -/

theorem map_eq_self_of_fixed (S M : Finset Cell) (l : List Sentence)
    (hl : ∀ s ∈ l, markBoth s S M = s) :
    l.map (fun s => markBoth s S M) = l := by
  induction l with
  | nil => rfl
  | cons s t ih =>
      simp only [List.map_cons]
      rw [hl s (List.mem_cons_self s t),
        ih (fun x hx => hl x (List.mem_cons_of_mem _ hx))]

theorem measure_decrease (a : AI) (hUk : UkProps a) (hInv : InvBoard a)
    (hne : inferPass a.knowledge ≠ []) : measureAI (stepF a) < measureAI a := by
  obtain ⟨hP1, hP2, hP3⟩ := hUk
  set b : AI := { a with knowledge := a.knowledge ++ inferPass a.knowledge }
    with hbdef
  have hext_sub : ∀ s ∈ b.knowledge, s.cells ⊆ boardCells a.height a.width := by
    intro s hs
    rcases List.mem_append.mp hs with h1 | h1
    · exact hInv s h1
    · obtain ⟨p, hp, o, ho, rfl, _, _, _, _⟩ := inferPass_mem_elim _ _ h1
      exact Finset.sdiff_subset.trans (hInv o ho)
  have hext_disj : ∀ s ∈ b.knowledge, Disjoint s.cells (a.safes ∪ a.mines) := by
    intro s hs
    rcases List.mem_append.mp hs with h1 | h1
    · exact hP3 s h1
    · obtain ⟨p, hp, o, ho, rfl, _, _, _, _⟩ := inferPass_mem_elim _ _ h1
      exact Finset.disjoint_of_subset_left Finset.sdiff_subset (hP3 o ho)
  have hext_ne : ∀ s ∈ b.knowledge, s.cells ≠ ∅ := by
    intro s hs
    rcases List.mem_append.mp hs with h1 | h1
    · exact hP1 s h1
    · obtain ⟨p, hp, o, ho, rfl, hd, _, _, _⟩ := inferPass_mem_elim _ _ h1
      exact hd
  have hsafes_sub : ∀ x ∈ ukSafes b, x ∈ a.safes ∨ ∃ s ∈ b.knowledge, x ∈ s.cells := by
    intro x hx
    rcases (mem_ukSafes b x).mp hx with h1 | ⟨s, hs, hxs⟩
    · exact Or.inl h1
    · exact Or.inr ⟨s, hs, known_safes_subset s hxs⟩
  have hmines_sub : ∀ x ∈ ukMines b, x ∈ a.mines ∨ ∃ s ∈ b.knowledge, x ∈ s.cells := by
    intro x hx
    rcases (mem_ukMines b x).mp hx with h1 | ⟨s, hs, hxs⟩
    · exact Or.inl h1
    · exact Or.inr ⟨s, hs, known_mines_subset s hxs⟩
  by_cases hnewc : ∃ c, (c ∈ ukSafes b ∨ c ∈ ukMines b) ∧ c ∉ a.safes ∪ a.mines
  · -- a genuinely new cell got marked: the unknown-cells count drops
    obtain ⟨c, hcS, hcnot⟩ := hnewc
    have hcell : ∃ s ∈ b.knowledge, c ∈ s.cells := by
      rcases hcS with h1 | h1
      · rcases hsafes_sub c h1 with h2 | h2
        · exact absurd (Finset.mem_union_left _ h2) hcnot
        · exact h2
      · rcases hmines_sub c h1 with h2 | h2
        · exact absurd (Finset.mem_union_right _ h2) hcnot
        · exact h2
    obtain ⟨s, hs, hcs⟩ := hcell
    have hcb : c ∈ boardCells a.height a.width := hext_sub s hs hcs
    have hss : boardCells a.height a.width \ ((stepF a).safes ∪ (stepF a).mines) ⊂
        boardCells a.height a.width \ (a.safes ∪ a.mines) := by
      have hsub : boardCells a.height a.width \ ((stepF a).safes ∪ (stepF a).mines) ⊆
          boardCells a.height a.width \ (a.safes ∪ a.mines) :=
        Finset.sdiff_subset_sdiff (Finset.Subset.refl _)
          (Finset.union_subset_union (safes_subset_ukSafes b)
            (mines_subset_ukMines b))
      rw [Finset.ssubset_iff_of_subset hsub]
      refine ⟨c, Finset.mem_sdiff.mpr ⟨hcb, hcnot⟩, ?_⟩
      rw [Finset.mem_sdiff]
      rintro ⟨-, hcon⟩
      rcases hcS with h1 | h1
      · exact hcon (Finset.mem_union_left _ h1)
      · exact hcon (Finset.mem_union_right _ h1)
    have hu : unknowns (stepF a) < unknowns a := Finset.card_lt_card hss
    have hu1 : 1 ≤ unknowns a := by omega
    have ht' : 2 ^ (a.height * a.width) - (cellSets (stepF a).knowledge).card ≤
        2 ^ (a.height * a.width) := Nat.sub_le _ _
    show unknowns (stepF a) * (2 ^ (a.height * a.width) + 1) +
        (2 ^ (a.height * a.width) - (cellSets (stepF a).knowledge).card) <
      unknowns a * (2 ^ (a.height * a.width) + 1) +
        (2 ^ (a.height * a.width) - (cellSets a.knowledge).card)
    have hmul : unknowns (stepF a) * (2 ^ (a.height * a.width) + 1) ≤
        (unknowns a - 1) * (2 ^ (a.height * a.width) + 1) :=
      Nat.mul_le_mul_right _ (by omega)
    have hsm : unknowns a * (2 ^ (a.height * a.width) + 1) =
        (unknowns a - 1) * (2 ^ (a.height * a.width) + 1) +
          (2 ^ (a.height * a.width) + 1) := by
      conv_lhs => rw [← Nat.sub_add_cancel hu1]
      rw [Nat.succ_mul]
    omega
  · -- nothing new got marked: at least one sentence with a fresh cell set
    -- joins the (deduplicated) knowledge list
    push_neg at hnewc
    have hS : ukSafes b = a.safes := by
      apply Finset.Subset.antisymm
      · intro c hc
        rcases hsafes_sub c hc with h1 | ⟨s, hs, hcs⟩
        · exact h1
        · have h1 := hnewc c (Or.inl hc)
          exact absurd h1 (Finset.disjoint_left.mp (hext_disj s hs) hcs)
      · exact safes_subset_ukSafes b
    have hM : ukMines b = a.mines := by
      apply Finset.Subset.antisymm
      · intro c hc
        rcases hmines_sub c hc with h1 | ⟨s, hs, hcs⟩
        · exact h1
        · have h1 := hnewc c (Or.inr hc)
          exact absurd h1 (Finset.disjoint_left.mp (hext_disj s hs) hcs)
      · exact mines_subset_ukMines b
    have hmb : ∀ s ∈ b.knowledge, markBoth s (ukSafes b) (ukMines b) = s := by
      intro s hs
      rw [hS, hM]
      exact markBoth_eq_self s _ _ (hext_disj s hs)
    have hfil : b.knowledge.filter (fun s => decide (s.cells ≠ ∅)) = b.knowledge :=
      List.filter_eq_self.mpr (fun s hs => decide_eq_true (hext_ne s hs))
    have hkeq : (stepF a).knowledge = removeDups b.knowledge ∅ := by
      show ukKnowledge b = _
      unfold ukKnowledge
      rw [map_eq_self_of_fixed _ _ _ hmb, hfil]
    have hcseq : cellSets (stepF a).knowledge = cellSets b.knowledge := by
      rw [hkeq, removeDups_cellSets, Finset.sdiff_empty]
    have hbk : cellSets b.knowledge =
        cellSets a.knowledge ∪ cellSets (inferPass a.knowledge) := by
      unfold cellSets
      show ((a.knowledge ++ inferPass a.knowledge).map Sentence.cells).toFinset = _
      rw [List.map_append, List.toFinset_append]
    obtain ⟨N, hN⟩ := List.exists_mem_of_ne_nil _ hne
    obtain ⟨p, hp, o, ho, rfl, hdne, hfresh, _, _⟩ := inferPass_mem_elim _ _ hN
    have hNnotin : (o.cells \ p.cells) ∉ cellSets a.knowledge := by
      rw [mem_cellSets]
      rintro ⟨t, ht, hteq⟩
      exact hfresh t ht hteq.symm
    have hNin : (o.cells \ p.cells) ∈ cellSets b.knowledge := by
      rw [hbk]
      refine Finset.mem_union_right _ ?_
      rw [mem_cellSets]
      exact ⟨⟨o.cells \ p.cells, o.count - p.count, p.mc⟩, hN, rfl⟩
    have hcard : (cellSets a.knowledge).card < (cellSets b.knowledge).card := by
      apply Finset.card_lt_card
      rw [Finset.ssubset_iff_of_subset (hbk ▸ Finset.subset_union_left)]
      exact ⟨_, hNin, hNnotin⟩
    have huq : unknowns (stepF a) = unknowns a := by
      show (boardCells a.height a.width \ (ukSafes b ∪ ukMines b)).card = _
      rw [hS, hM]
      rfl
    have hbound := cellSets_card_le a.knowledge (boardCells a.height a.width)
      hInv hP1
    rw [boardCells_card] at hbound
    have hone : 1 ≤ 2 ^ (a.height * a.width) := Nat.one_le_two_pow
    show unknowns (stepF a) * (2 ^ (a.height * a.width) + 1) +
        (2 ^ (a.height * a.width) - (cellSets (stepF a).knowledge).card) <
      unknowns a * (2 ^ (a.height * a.width) + 1) +
        (2 ^ (a.height * a.width) - (cellSets a.knowledge).card)
    rw [huq, hcseq]
    omega

/-! ### Termination of the fixed-point loop -/

theorem loop_fin (g : ℕ) :
    ∀ x : AI, measureAI x ≤ g → UkProps x → InvBoard x →
      ∃ n, n ≤ measureAI x ∧ inferPass ((stepF^[n]) x).knowledge = [] := by
  induction g with
  | zero =>
      intro x hm hUk hInv
      by_cases hip : inferPass x.knowledge = []
      · exact ⟨0, Nat.zero_le _, hip⟩
      · exfalso
        have := measure_decrease x hUk hInv hip
        omega
  | succ g ih =>
      intro x hm hUk hInv
      by_cases hip : inferPass x.knowledge = []
      · exact ⟨0, Nat.zero_le _, hip⟩
      · have hdec := measure_decrease x hUk hInv hip
        obtain ⟨n, hn1, hn2⟩ := ih (stepF x) (by omega) (ukProps_stepF x)
          (stepF_inv x hInv)
        refine ⟨n + 1, by omega, ?_⟩
        rw [Function.iterate_succ_apply]
        exact hn2

theorem iterate_stepF_height (m : ℕ) (x : AI) :
    ((stepF^[m]) x).height = x.height := by
  induction m generalizing x with
  | zero => rfl
  | succ m ih =>
      rw [Function.iterate_succ_apply]
      exact (ih (stepF x)).trans rfl

theorem iterate_stepF_width (m : ℕ) (x : AI) :
    ((stepF^[m]) x).width = x.width := by
  induction m generalizing x with
  | zero => rfl
  | succ m ih =>
      rw [Function.iterate_succ_apply]
      exact (ih (stepF x)).trans rfl

/-! ### Claim C2 -/

/-- Claim C2: starting from any state reachable by a finite sequence of
observations, each further call to `add_knowledge` terminates — the `while`
loop (whose body is `stepF`, run on the state `uk (obsPrep ...)` it starts
from) reaches, within the explicit fuel `fuelBound height width`, an
iteration whose subset-difference pass produces no new sentence — and
throughout the loop the `knowledge` list's length is bounded by
`2 ^ (height * width)`, a function of the board area. -/
theorem c2_loop_terminates_and_bounded (a : AI) (hR : Reach a)
    (cell : Cell) (count : ℤ) :
    (∃ n, n ≤ fuelBound a.height a.width ∧
      inferPass ((stepF^[n]) (uk (obsPrep a cell count))).knowledge = []) ∧
    (∀ m, ((stepF^[m]) (uk (obsPrep a cell count))).knowledge.length ≤
      2 ^ (a.height * a.width)) := by
  have hInv : InvBoard a := reach_inv a hR
  have hInvP : InvBoard (obsPrep a cell count) := obsPrep_inv a cell count hInv
  have hprops : ∀ m, UkProps ((stepF^[m]) (uk (obsPrep a cell count))) ∧
      InvBoard ((stepF^[m]) (uk (obsPrep a cell count))) := by
    intro m
    induction m with
    | zero => exact ⟨ukProps_uk _, uk_inv _ hInvP⟩
    | succ m ih =>
        rw [Function.iterate_succ_apply']
        exact ⟨ukProps_stepF _, stepF_inv _ ih.2⟩
  have hmb : measureAI (uk (obsPrep a cell count)) ≤ fuelBound a.height a.width := by
    have h1 : unknowns (uk (obsPrep a cell count)) ≤ a.height * a.width := by
      show (boardCells a.height a.width \ _).card ≤ _
      calc (boardCells a.height a.width \ _).card
          ≤ (boardCells a.height a.width).card :=
            Finset.card_le_card Finset.sdiff_subset
        _ = a.height * a.width := boardCells_card _ _
    have h3 := Nat.mul_le_mul_right (2 ^ (a.height * a.width) + 1) h1
    have h4 : (a.height * a.width + 1) * (2 ^ (a.height * a.width) + 1) =
        a.height * a.width * (2 ^ (a.height * a.width) + 1) +
          (2 ^ (a.height * a.width) + 1) := Nat.succ_mul _ _
    have h2 : 2 ^ (a.height * a.width) -
        (cellSets (uk (obsPrep a cell count)).knowledge).card ≤
        2 ^ (a.height * a.width) := Nat.sub_le _ _
    show unknowns (uk (obsPrep a cell count)) * (2 ^ (a.height * a.width) + 1) +
        (2 ^ (a.height * a.width) -
          (cellSets (uk (obsPrep a cell count)).knowledge).card) ≤
      fuelBound a.height a.width
    unfold fuelBound
    omega
  obtain ⟨n, hn1, hn2⟩ := loop_fin (measureAI (uk (obsPrep a cell count)))
    (uk (obsPrep a cell count)) (le_refl _) (ukProps_uk _) (uk_inv _ hInvP)
  refine ⟨⟨n, hn1.trans hmb, hn2⟩, ?_⟩
  intro m
  obtain ⟨⟨hne', hnd, hdis⟩, hI⟩ := hprops m
  have hlen := knowledge_length_eq _ hnd
  have hb := cellSets_card_le _
    (boardCells ((stepF^[m]) (uk (obsPrep a cell count))).height
      ((stepF^[m]) (uk (obsPrep a cell count))).width) hI hne'
  rw [boardCells_card, iterate_stepF_height, iterate_stepF_width] at hb
  have hb' : (cellSets ((stepF^[m]) (uk (obsPrep a cell count))).knowledge).card ≤
      2 ^ (a.height * a.width) - 1 := hb
  calc ((stepF^[m]) (uk (obsPrep a cell count))).knowledge.length
      = (cellSets ((stepF^[m]) (uk (obsPrep a cell count))).knowledge).card := hlen
    _ ≤ 2 ^ (a.height * a.width) - 1 := hb'
    _ ≤ 2 ^ (a.height * a.width) := Nat.sub_le _ _

/-- Witness for `c2_loop_terminates_and_bounded` at a fresh 1×1 board
observing `(0,0)` with count 0. -/
theorem c2_witness :
    Reach (initAI 1 1) ∧
    ((∃ n, n ≤ fuelBound (initAI 1 1).height (initAI 1 1).width ∧
        inferPass
          ((stepF^[n]) (uk (obsPrep (initAI 1 1) ((0:ℤ),(0:ℤ)) 0))).knowledge =
          []) ∧
      (∀ m, ((stepF^[m])
          (uk (obsPrep (initAI 1 1) ((0:ℤ),(0:ℤ)) 0))).knowledge.length ≤
        2 ^ ((initAI 1 1).height * (initAI 1 1).width))) :=
  ⟨Reach.start 1 1,
    c2_loop_terminates_and_bounded (initAI 1 1) (Reach.start 1 1)
      ((0:ℤ),(0:ℤ)) 0⟩
